import Mathlib

/-!
Verification of the periph waveform/clock core: the BCM283x clock divisor
solver (`findDivisorExact` / `findDivisor`), the `stream` package rasterizer
(`Bits`, `Edges`, `Program`, `Raster32`), and the SK6812 NRZ bit encoder
(`expandNRZ`).

The Go code is embedded shallowly: `uint64` / `uint32` values become `Nat`
with an explicit `% 2^64` exactly where the Go arithmetic can wrap, and
`time.Duration` (an `int64` nanosecond count) becomes `Int` with an explicit
two's-complement wrap `wrap64` where products or sums can overflow.
-/

namespace Periph

/-- The constant `2^64`, the modulus of Go `uint64` arithmetic. -/
def u64Mod : Nat := 18446744073709551616

/-- Inner scan of Go `findDivisorExact`:
`for i := j; i <= x; i++ { if d%i == 0 && d/i == desiredHz { return i, j } }`.
Returns the first `i` in `[i, x]` with `d % i == 0 && d / i == desiredHz`,
or `none` when the scan falls through. -/
def scanX (d desiredHz x i : Nat) : Option Nat :=
  if h : i ≤ x then
    if d % i = 0 ∧ d / i = desiredHz then some i
    else scanX d desiredHz x (i+1)
  else none
termination_by x + 1 - i
decreasing_by omega

/-- Outer scan of Go `findDivisorExact`:
`for j := 1; j <= y; j++ { if srcHz%j != 0 { continue }; d := srcHz/j;
if d < desiredHz { break }; <scanX> }`, started at a given `j`.
Returns `(0, 0)` when the loop ends without a hit, exactly as the Go code. -/
def scanY (srcHz desiredHz x y j : Nat) : Nat × Nat :=
  if _h : j ≤ y then
    if srcHz % j ≠ 0 then scanY srcHz desiredHz x y (j+1)
    else if srcHz / j < desiredHz then (0, 0)
    else
      match scanX (srcHz / j) desiredHz x j with
      | some i => (i, j)
      | none => scanY srcHz desiredHz x y (j+1)
  else (0, 0)
termination_by y + 1 - j
decreasing_by all_goals omega

/-- Go `findDivisorExact(srcHz, desiredHz uint64, x, y int) (int, int)`.
The Go function panics when `x < y`; every call site and every theorem below
satisfies `y ≤ x`, so the panic branch is unreachable and is not modelled. -/
def findDivisorExact (srcHz desiredHz : Nat) (x y : Nat) : Nat × Nat :=
  scanY srcHz desiredHz x y 1

/-- One iteration of the error-minimizing fallback scan at position `(i, j)`:
Go `actual := (srcHz / uint64(i)) / uint64(j); err := (actual - desiredHz);
if err < 0 { err = -err }; if minErr > err { ... }`.
`err` is computed in `uint64`, so the subtraction wraps modulo `2^64` and the
`if err < 0` branch of the source is dead code.  The state tuple is
`(minErr, m, n, selected)`. -/
def errStep (srcHz desiredHz i j : Nat) (st : Nat × Nat × Nat × Nat) :
    Nat × Nat × Nat × Nat :=
  let actual := srcHz / i / j
  let err := (actual + (u64Mod - desiredHz)) % u64Mod
  if st.1 > err then (err, i, j, actual) else st

/-- Inner `for j := 1; j <= maxY; j++` loop of the fallback scan, running
`fuel` iterations from column `j`.  Defined through a bare `Nat.rec` so that
the kernel can evaluate it without `brecOn` overhead. -/
def errInner (srcHz desiredHz i : Nat) :
    Nat → Nat → (Nat × Nat × Nat × Nat) → Nat × Nat × Nat × Nat :=
  fun fuel =>
    Nat.rec (motive := fun _ => Nat → (Nat × Nat × Nat × Nat) → Nat × Nat × Nat × Nat)
      (fun _ st => st)
      (fun _ ih j st => ih (j+1) (errStep srcHz desiredHz i j st)) fuel

/-- Outer `for i := 1; i <= x; i++` loop of the fallback scan, running `fuel`
iterations from row `i`; each row runs the inner loop over
`j = 1 .. min y i` (Go: `maxY := y; if maxY > i { maxY = i }`). -/
def errOuter (srcHz desiredHz y : Nat) :
    Nat → Nat → (Nat × Nat × Nat × Nat) → Nat × Nat × Nat × Nat :=
  fun fuel =>
    Nat.rec (motive := fun _ => Nat → (Nat × Nat × Nat × Nat) → Nat × Nat × Nat × Nat)
      (fun _ st => st)
      (fun _ ih i st => ih (i+1) (errInner srcHz desiredHz i (min y i) 1 st)) fuel

/-- Applies `f` to `st` after forcing all four components of `st` to
numerals (the `Nat.rec` major premise must be evaluated to pick a branch,
and both branches return `f st`).  `strict4 st f = f st` always
(`strict4_eq` below); the detour only keeps the kernel's call-by-name
evaluation chains shallow when the fallback scan is computed. -/
def strict4 {α : Type} (st : Nat × Nat × Nat × Nat) (f : Nat × Nat × Nat × Nat → α) : α :=
  Nat.rec (motive := fun _ => α) (f st) (fun _ _ => f st)
    (st.1 % 2 + st.2.1 % 2 + st.2.2.1 % 2 + st.2.2.2 % 2)

/-- Variant of `errInner` with the state forced at every step; equal to it
(`errInnerF_eq`), but kernel-evaluable on long runs. -/
def errInnerF (srcHz desiredHz i : Nat) :
    Nat → Nat → (Nat × Nat × Nat × Nat) → Nat × Nat × Nat × Nat :=
  fun fuel =>
    Nat.rec (motive := fun _ => Nat → (Nat × Nat × Nat × Nat) → Nat × Nat × Nat × Nat)
      (fun _ st => st)
      (fun _ ih j st => strict4 (errStep srcHz desiredHz i j st) (ih (j+1))) fuel

/-- Variant of `errOuter` on top of `errInnerF`; equal to `errOuter` (`errOuterF_eq`). -/
def errOuterF (srcHz desiredHz y : Nat) :
    Nat → Nat → (Nat × Nat × Nat × Nat) → Nat × Nat × Nat × Nat :=
  fun fuel =>
    Nat.rec (motive := fun _ => Nat → (Nat × Nat × Nat × Nat) → Nat × Nat × Nat × Nat)
      (fun _ st => st)
      (fun _ ih i st => ih (i+1) (errInnerF srcHz desiredHz i (min y i) 1 st)) fuel

/-- Tail of Go `findDivisor`: the error-minimizing exhaustive scan.
`desiredHz *= 200; srcHz *= 100` (both `uint64`, hence the `% 2^64`),
`minErr := 0xFFFFFFFFFFFFFFF`, scan all `(i, j)`, and return
`m, n, selected/100, minErr/100`. -/
def fallback (srcHz desiredHz x y : Nat) : Nat × Nat × Nat × Nat :=
  let d2 := desiredHz * 200 % u64Mod
  let s2 := srcHz * 100 % u64Mod
  let st := errOuter s2 d2 y x 1 (1152921504606846975, 0, 0, 0)
  (st.2.1, st.2.2.1, st.2.2.2 / 100, st.1 / 100)

/-- Oversampling loop of Go `findDivisor`:
`for i := uint64(2); ; i++ { d := i * desiredHz; if d > 100000 && i > 10
{ break }; if m, n := findDivisorExact(srcHz, d, x, y); m != 0 { return
m, n, d, 0 } }` followed by the error-minimizing fallback after the break.
The Go loop has no bound of its own (for `desiredHz == 0` it never breaks),
so the embedding carries an explicit fuel and returns `none` when the fuel
runs out before the Go loop would have returned. -/
def overLoop (srcHz desiredHz : Nat) (x y : Nat) :
    Nat → Nat → Option (Nat × Nat × Nat × Nat)
  | 0, _ => none
  | fuel+1, i =>
    let d := i * desiredHz % u64Mod
    if d > 100000 ∧ i > 10 then some (fallback srcHz desiredHz x y)
    else
      let r := findDivisorExact srcHz d x y
      if r.1 ≠ 0 then some (r.1, r.2, d, 0)
      else overLoop srcHz desiredHz x y fuel (i+1)

/-- Go `findDivisor(srcHz, desiredHz uint64, x, y int) (int, int, uint64,
uint64)`: exact search first, then the oversampling loop (entered at
`i = 2`, here with fuel `2^64`), whose break falls into the error-minimizing
fallback. -/
def findDivisor (srcHz desiredHz x y : Nat) : Option (Nat × Nat × Nat × Nat) :=
  let r := findDivisorExact srcHz desiredHz x y
  if r.1 ≠ 0 then some (r.1, r.2, desiredHz, 0)
  else overLoop srcHz desiredHz x y u64Mod 2

/-! ## The stream package: Bits, Edges, Program, Raster32

Go `time.Duration` is an `int64` count of nanoseconds; it is embedded as
`Int` with the two's-complement wrap `wrap64` applied exactly where the Go
arithmetic (products, running sums) can overflow.  `gpio.Bits` is a `[]byte`
(8 samples per byte, least-significant bit first); it is embedded as
`List Nat` whose entries are the byte values.  The `[]uint32` set/clear
buffers become `List Nat`; the only operation applied to their elements is
`|=` with a `uint32` mask, which never wraps. -/

/-- Two's-complement wrap of an integer into `int64` range, the semantics of
overflowing Go `int64` arithmetic. -/
def wrap64 (z : Int) : Int := (z + 2^63) % 2^64 - 2^63

/-- Go `stream.Bits`: a dense bit stream (field `Bits gpio.Bits`, 8 samples
per byte, LSB first) with a per-bit duration `Res time.Duration`. -/
structure Bits where
  bits : List Nat
  res : Int

/-- Go `(b *Bits) Resolution()`. -/
def Bits.resolution (b : Bits) : Int := b.res

/-- Go `(b *Bits) Duration() { return b.Res * time.Duration(len(b.Bits)) }`.
Note the source multiplies by the byte count `len(b.Bits)`, not by the
sample count `8 * len(b.Bits)`. -/
def Bits.duration (b : Bits) : Int := wrap64 (b.res * b.bits.length)

/-- Body of the inner `for j := 0; j < 8; j++` loop of Go `Bits.raster32`:
`if b.Bits[i]&(1<<uint(j)) != 0 { set[8*i+j] |= setMask } else
{ clear[8*i+j] |= clearMask }`, iterated `fuel` times from bit `j`.
`List.set`/`List.getD` silently ignore out-of-range indices, where the Go
code would panic; all uses below keep `8*i+j` within both buffers. -/
def bitsInner (byteVal setMask clearMask i : Nat) :
    Nat → Nat → List Nat → List Nat → List Nat × List Nat
  | 0, _, clear, set => (clear, set)
  | fuel+1, j, clear, set =>
    if byteVal.testBit j then
      bitsInner byteVal setMask clearMask i fuel (j+1) clear
        (set.set (8*i+j) (set.getD (8*i+j) 0 ||| setMask))
    else
      bitsInner byteVal setMask clearMask i fuel (j+1)
        (clear.set (8*i+j) (clear.getD (8*i+j) 0 ||| clearMask)) set

/-- Outer `for i := 0; i < m; i++` loop of Go `Bits.raster32`, iterated
`fuel` times from byte index `i`. -/
def bitsOuter (bits : List Nat) (setMask clearMask : Nat) :
    Nat → Nat → List Nat → List Nat → List Nat × List Nat
  | 0, _, clear, set => (clear, set)
  | fuel+1, i, clear, set =>
    let p := bitsInner (bits.getD i 0) setMask clearMask i 8 0 clear set
    bitsOuter bits setMask clearMask fuel (i+1) p.1 p.2

/-- Go `(b *Bits) raster32(resolution, clear, set, setMask, clearMask)`.
The result is `(error, clear, set)`: every `return errors.New(...)` in the
source happens before any buffer write, so the error cases return the
buffers as given. `m := len(clear) / 8; if n := len(b.Bits); n < m { m = n }`. -/
def Bits.raster32 (b : Bits) (resolution : Int) (clear set : List Nat)
    (setMask clearMask : Nat) : Option String × List Nat × List Nat :=
  if resolution ≠ b.res then (some "TODO: implement resolution matching", clear, set)
  else if b.duration > wrap64 (resolution * clear.length) then
    (some "buffer is too short", clear, set)
  else
    let m := min (clear.length / 8) b.bits.length
    let p := bitsOuter b.bits setMask clearMask m 0 clear set
    (none, p.1, p.2)

/-- Go `stream.Edges`: a list of level-change durations (`Edges
[]time.Duration`; the first level is High, a leading 0 duration encodes
"start Low") and a minimum resolution `Res`. -/
structure Edges where
  edges : List Int
  res : Int

/-- Go `(e *Edges) Resolution()`. -/
def Edges.resolution (e : Edges) : Int := e.res

/-- Go `(e *Edges) Duration()`: running `+=` sum of the edge durations in
`time.Duration` (`int64`, hence the wrap on each addition). -/
def Edges.duration (e : Edges) : Int :=
  e.edges.foldl (fun t edge => wrap64 (t + edge)) 0

/-- The `for i := range clear` loop of Go `Edges.raster32` with the level
flag `l` (initialised to `gpio.High` and never updated by the source —
`edges := e.Edges` is commented out): `if l { set[i] |= setMask } else
{ clear[i] |= clearMask }`, `fuel` iterations from index `i`. -/
def edgesLoop (setMask clearMask : Nat) (l : Bool) :
    Nat → Nat → List Nat → List Nat → List Nat × List Nat
  | 0, _, clear, set => (clear, set)
  | fuel+1, i, clear, set =>
    if l then
      edgesLoop setMask clearMask l fuel (i+1) clear
        (set.set i (set.getD i 0 ||| setMask))
    else
      edgesLoop setMask clearMask l fuel (i+1)
        (clear.set i (clear.getD i 0 ||| clearMask)) set

/-- Go `(e *Edges) raster32(resolution, clear, set, setMask, clearMask)`:
rejects `resolution < e.Res` as "resolution is too coarse", checks the
buffer, then fills every slot of the whole buffer at level `l = gpio.High`. -/
def Edges.raster32 (e : Edges) (resolution : Int) (clear set : List Nat)
    (setMask clearMask : Nat) : Option String × List Nat × List Nat :=
  if resolution < e.res then (some "resolution is too coarse", clear, set)
  else if e.duration > wrap64 (resolution * clear.length) then
    (some "buffer is too short", clear, set)
  else
    let p := edgesLoop setMask clearMask true clear.length 0 clear set
    (none, p.1, p.2)

mutual

/-- Go `gpio.Stream`: the closed set of stream implementations accepted by
`Raster32` (`*Bits`, `*Edges`, `*Program`; the `default:` "unknown type"
case of the Go switch is unreachable for these). -/
inductive Stream where
  | bits (b : Bits)
  | edges (e : Edges)
  | program (p : Program)

/-- Go `stream.Program`: a looped sequence of streams (`Parts []gpio.Stream`,
`Res time.Duration`, `Loops int`, -1 meaning an infinite loop). -/
inductive Program where
  | mk (parts : List Stream) (res : Int) (loops : Int)

end

/-- Go `(p *Program) raster32(...)`: `return errors.New("implement me")` —
no buffer is ever touched, whatever the program holds. -/
def Program.raster32 (_p : Program) (_resolution : Int) (clear set : List Nat)
    (_setMask _clearMask : Nat) : Option String × List Nat × List Nat :=
  (some "implement me", clear, set)

/-- Go `stream.Raster32(s, resolution, clear, set, setMask, clearMask)`:
the mask and buffer checks, in source order, then dispatch on the stream
type. -/
def Raster32 (s : Stream) (resolution : Int) (clear set : List Nat)
    (setMask clearMask : Nat) : Option String × List Nat × List Nat :=
  if setMask = 0 then (some "setMask is 0", clear, set)
  else if clearMask = 0 then (some "clearMask is 0", clear, set)
  else if clear.length = 0 then (some "clear buffer is empty", clear, set)
  else if set.length = 0 then (some "set buffer is empty", clear, set)
  else if clear.length ≠ set.length then
    (some "clear and set buffers have different length", clear, set)
  else
    match s with
    | .bits b => b.raster32 resolution clear set setMask clearMask
    | .edges e => e.raster32 resolution clear set setMask clearMask
    | .program p => p.raster32 resolution clear set setMask clearMask

/-! ## The SK6812 NRZ bit encoder -/

/-- Go `sk6812rgbw.expandNRZ(b byte) uint32`: starts from the carrier
pattern `0x924924` and ORs bit `k` of `b` into output bit `3*k+1`, with the
shift amounts written exactly as in the source.  All intermediate values fit
in 24 bits, so the `uint32` arithmetic never wraps. -/
def expandNRZ (b : Nat) : Nat :=
  let out : Nat := 0x924924
  let out := out ||| ((b &&& 0x80) <<< (3*7 + 1 - 7))
  let out := out ||| ((b &&& 0x40) <<< (3*6 + 1 - 6))
  let out := out ||| ((b &&& 0x20) <<< (3*5 + 1 - 5))
  let out := out ||| ((b &&& 0x10) <<< (3*4 + 1 - 4))
  let out := out ||| ((b &&& 0x08) <<< (3*3 + 1 - 3))
  let out := out ||| ((b &&& 0x04) <<< (3*2 + 1 - 2))
  let out := out ||| ((b &&& 0x02) <<< (3*1 + 1 - 1))
  let out := out ||| ((b &&& 0x01) <<< (3*0 + 1 - 0))
  out

/-- A `y`-column hit of the exact search: position `n` admits an `x`-value
`m` in `[n, x]` with `s = t * m * n` (then `n` divides `s`, `m` divides
`s/n` and `(s/n)/m = t`, which is what the Go loops test). -/
def hitY (s t x n : Nat) : Prop := ∃ m, n ≤ m ∧ m ≤ x ∧ s = t * m * n

/-- An exact divisor pair for `srcHz = s`, `desiredHz = t` within ranges
`[1, X]` for `m` and `[1, Y]` for `n` with `n ≤ m`: `s / (m * n)` equals `t`
exactly, i.e. `s = t * m * n`. -/
def ExactPair (s t X Y m n : Nat) : Prop :=
  1 ≤ n ∧ n ≤ Y ∧ n ≤ m ∧ m ≤ X ∧ s = t * m * n

/-! ## Theorems -/

/-! ### List helpers -/

theorem getD_set_self (l : List Nat) (k v : Nat) (h : k < l.length) :
    (l.set k v).getD k 0 = v := by
  rw [List.getD_eq_getD_get?, List.get?_set_eq_of_lt _ h]
  rfl

theorem getD_set_ne (l : List Nat) (j k v : Nat) (h : j ≠ k) :
    (l.set j v).getD k 0 = l.getD k 0 := by
  rw [List.getD_eq_getD_get?, List.get?_set_ne _ _ h, ← List.getD_eq_getD_get?]

theorem getD_eq_zero_of_all_zero (l : List Nat) (k : Nat)
    (h : ∀ v ∈ l, v = 0) : l.getD k 0 = 0 := by
  rcases Nat.lt_or_ge k l.length with hk | hk
  · rw [List.getD_eq_getElem _ _ hk]
    exact h _ (List.getElem_mem hk)
  · exact List.getD_eq_default _ _ hk

/-! ### Characterization of the Bits.raster32 loops -/

theorem bitsInner_length (v sM cM i : Nat) : ∀ fuel j clear set,
    (bitsInner v sM cM i fuel j clear set).1.length = clear.length ∧
    (bitsInner v sM cM i fuel j clear set).2.length = set.length := by
  intro fuel
  induction fuel with
  | zero => intro j clear set; exact ⟨rfl, rfl⟩
  | succ n ih =>
    intro j clear set
    rw [show bitsInner v sM cM i (n+1) j clear set =
        (if v.testBit j then
          bitsInner v sM cM i n (j+1) clear (set.set (8*i+j) (set.getD (8*i+j) 0 ||| sM))
        else
          bitsInner v sM cM i n (j+1) (clear.set (8*i+j) (clear.getD (8*i+j) 0 ||| cM)) set)
      from rfl]
    by_cases hb : v.testBit j
    · rw [if_pos hb]
      simpa using ih (j+1) clear (set.set (8*i+j) (set.getD (8*i+j) 0 ||| sM))
    · rw [if_neg hb]
      simpa using ih (j+1) (clear.set (8*i+j) (clear.getD (8*i+j) 0 ||| cM)) set

theorem bitsInner_set_getD (v sM cM i : Nat) : ∀ fuel j clear set k,
    k < set.length →
    (bitsInner v sM cM i fuel j clear set).2.getD k 0 =
      (if 8*i+j ≤ k ∧ k < 8*i+j+fuel ∧ v.testBit (k - 8*i)
       then set.getD k 0 ||| sM else set.getD k 0) := by
  intro fuel
  induction fuel with
  | zero =>
    intro j clear set k hk
    simp only [bitsInner]
    rw [if_neg (by omega)]
  | succ n ih =>
    intro j clear set k hk
    rw [show bitsInner v sM cM i (n+1) j clear set =
        (if v.testBit j then
          bitsInner v sM cM i n (j+1) clear (set.set (8*i+j) (set.getD (8*i+j) 0 ||| sM))
        else
          bitsInner v sM cM i n (j+1) (clear.set (8*i+j) (clear.getD (8*i+j) 0 ||| cM)) set)
      from rfl]
    by_cases hb : v.testBit j
    · rw [if_pos hb]
      rw [ih _ _ _ _ (by simpa using hk)]
      by_cases hkj : k = 8*i+j
      · subst hkj
        rw [if_neg (fun h => by omega), getD_set_self _ _ _ hk,
          if_pos ⟨Nat.le_refl _, by omega, by simpa [Nat.add_sub_cancel_left] using hb⟩]
      · rw [getD_set_ne _ _ _ _ (fun h => hkj h.symm)]
        by_cases hbit : v.testBit (k - 8*i)
        · by_cases hle : 8*i+j ≤ k ∧ k < 8*i+j+(n+1)
          · rw [if_pos ⟨by omega, by omega, hbit⟩, if_pos ⟨hle.1, hle.2, hbit⟩]
          · rw [if_neg (fun h => hle ⟨by omega, by omega⟩),
              if_neg (fun h => hle ⟨h.1, h.2.1⟩)]
        · rw [if_neg (fun h => hbit h.2.2), if_neg (fun h => hbit h.2.2)]
    · rw [if_neg hb]
      rw [ih _ _ _ _ hk]
      by_cases hbit : v.testBit (k - 8*i)
      · by_cases hkj : k = 8*i+j
        · subst hkj
          rw [Nat.add_sub_cancel_left] at hbit
          exact absurd hbit hb
        · by_cases hle : 8*i+j ≤ k ∧ k < 8*i+j+(n+1)
          · rw [if_pos ⟨by omega, by omega, hbit⟩, if_pos ⟨hle.1, hle.2, hbit⟩]
          · rw [if_neg (fun h => hle ⟨by omega, by omega⟩),
              if_neg (fun h => hle ⟨h.1, h.2.1⟩)]
      · rw [if_neg (fun h => hbit h.2.2), if_neg (fun h => hbit h.2.2)]

theorem bitsInner_clear_getD (v sM cM i : Nat) : ∀ fuel j clear set k,
    k < clear.length →
    (bitsInner v sM cM i fuel j clear set).1.getD k 0 =
      (if 8*i+j ≤ k ∧ k < 8*i+j+fuel ∧ ¬ v.testBit (k - 8*i)
       then clear.getD k 0 ||| cM else clear.getD k 0) := by
  intro fuel
  induction fuel with
  | zero =>
    intro j clear set k hk
    simp only [bitsInner]
    rw [if_neg (by omega)]
  | succ n ih =>
    intro j clear set k hk
    rw [show bitsInner v sM cM i (n+1) j clear set =
        (if v.testBit j then
          bitsInner v sM cM i n (j+1) clear (set.set (8*i+j) (set.getD (8*i+j) 0 ||| sM))
        else
          bitsInner v sM cM i n (j+1) (clear.set (8*i+j) (clear.getD (8*i+j) 0 ||| cM)) set)
      from rfl]
    by_cases hb : v.testBit j
    · rw [if_pos hb]
      rw [ih _ _ _ _ hk]
      by_cases hbit : v.testBit (k - 8*i)
      · rw [if_neg (fun h => h.2.2 hbit), if_neg (fun h => h.2.2 hbit)]
      · by_cases hkj : k = 8*i+j
        · subst hkj
          rw [Nat.add_sub_cancel_left] at hbit
          exact absurd hb hbit
        · by_cases hle : 8*i+j ≤ k ∧ k < 8*i+j+(n+1)
          · rw [if_pos ⟨by omega, by omega, hbit⟩, if_pos ⟨hle.1, hle.2, hbit⟩]
          · rw [if_neg (fun h => hle ⟨by omega, by omega⟩),
              if_neg (fun h => hle ⟨h.1, h.2.1⟩)]
    · rw [if_neg hb]
      rw [ih _ _ _ _ (by simpa using hk)]
      by_cases hkj : k = 8*i+j
      · subst hkj
        rw [if_neg (fun h => by omega), getD_set_self _ _ _ hk,
          if_pos ⟨Nat.le_refl _, by omega, by simpa [Nat.add_sub_cancel_left] using hb⟩]
      · rw [getD_set_ne _ _ _ _ (fun h => hkj h.symm)]
        by_cases hbit : v.testBit (k - 8*i)
        · rw [if_neg (fun h => h.2.2 hbit), if_neg (fun h => h.2.2 hbit)]
        · by_cases hle : 8*i+j ≤ k ∧ k < 8*i+j+(n+1)
          · rw [if_pos ⟨by omega, by omega, hbit⟩, if_pos ⟨hle.1, hle.2, hbit⟩]
          · rw [if_neg (fun h => hle ⟨by omega, by omega⟩),
              if_neg (fun h => hle ⟨h.1, h.2.1⟩)]

theorem bitsOuter_length (bits : List Nat) (sM cM : Nat) : ∀ fuel i clear set,
    (bitsOuter bits sM cM fuel i clear set).1.length = clear.length ∧
    (bitsOuter bits sM cM fuel i clear set).2.length = set.length := by
  intro fuel
  induction fuel with
  | zero => intro i clear set; exact ⟨rfl, rfl⟩
  | succ n ih =>
    intro i clear set
    rw [show bitsOuter bits sM cM (n+1) i clear set =
        bitsOuter bits sM cM n (i+1)
          (bitsInner (bits.getD i 0) sM cM i 8 0 clear set).1
          (bitsInner (bits.getD i 0) sM cM i 8 0 clear set).2 from rfl]
    rcases ih (i+1) (bitsInner (bits.getD i 0) sM cM i 8 0 clear set).1
      (bitsInner (bits.getD i 0) sM cM i 8 0 clear set).2 with ⟨h1, h2⟩
    rcases bitsInner_length (bits.getD i 0) sM cM i 8 0 clear set with ⟨g1, g2⟩
    exact ⟨h1.trans g1, h2.trans g2⟩

theorem bitsOuter_set_getD (bits : List Nat) (sM cM : Nat) : ∀ fuel i clear set k,
    k < set.length →
    (bitsOuter bits sM cM fuel i clear set).2.getD k 0 =
      (if 8*i ≤ k ∧ k < 8*(i+fuel) ∧ (bits.getD (k/8) 0).testBit (k % 8)
       then set.getD k 0 ||| sM else set.getD k 0) := by
  intro fuel
  induction fuel with
  | zero =>
    intro i clear set k hk
    simp only [bitsOuter]
    rw [if_neg (by omega)]
  | succ n ih =>
    intro i clear set k hk
    rw [show bitsOuter bits sM cM (n+1) i clear set =
        bitsOuter bits sM cM n (i+1)
          (bitsInner (bits.getD i 0) sM cM i 8 0 clear set).1
          (bitsInner (bits.getD i 0) sM cM i 8 0 clear set).2 from rfl]
    have hk2 : k < (bitsInner (bits.getD i 0) sM cM i 8 0 clear set).2.length := by
      rw [(bitsInner_length (bits.getD i 0) sM cM i 8 0 clear set).2]; exact hk
    rw [ih (i+1) _ _ _ hk2,
      bitsInner_set_getD (bits.getD i 0) sM cM i 8 0 clear set k hk]
    by_cases h1 : k < 8*i
    · have hA : ¬(8*i+0 ≤ k ∧ k < 8*i+0+8 ∧ (bits.getD i 0).testBit (k - 8*i)) :=
        fun h => absurd h.1 (by omega)
      have hB : ¬(8*(i+1) ≤ k ∧ k < 8*((i+1)+n) ∧ (bits.getD (k/8) 0).testBit (k % 8)) :=
        fun h => absurd h.1 (by omega)
      have hC : ¬(8*i ≤ k ∧ k < 8*(i+(n+1)) ∧ (bits.getD (k/8) 0).testBit (k % 8)) :=
        fun h => absurd h.1 (by omega)
      rw [if_neg hA, if_neg hB, if_neg hC]
    · by_cases h2 : k < 8*(i+1)
      · have hdiv : k / 8 = i := by omega
        have hmod : k % 8 = k - 8*i := by omega
        have hB : ¬(8*(i+1) ≤ k ∧ k < 8*((i+1)+n) ∧ (bits.getD (k/8) 0).testBit (k % 8)) :=
          fun h => absurd h.1 (by omega)
        rw [if_neg hB]
        by_cases hbit : (bits.getD i 0).testBit (k - 8*i)
        · rw [if_pos (show 8*i+0 ≤ k ∧ k < 8*i+0+8 ∧ (bits.getD i 0).testBit (k - 8*i)
              from ⟨by omega, by omega, hbit⟩),
            if_pos (show 8*i ≤ k ∧ k < 8*(i+(n+1)) ∧ (bits.getD (k/8) 0).testBit (k % 8)
              from ⟨by omega, by omega, by rw [hdiv, hmod]; exact hbit⟩)]
        · rw [if_neg (show ¬(8*i+0 ≤ k ∧ k < 8*i+0+8 ∧ (bits.getD i 0).testBit (k - 8*i))
              from fun h => hbit h.2.2),
            if_neg (show ¬(8*i ≤ k ∧ k < 8*(i+(n+1)) ∧ (bits.getD (k/8) 0).testBit (k % 8))
              from fun h => hbit (by rw [hdiv, hmod] at h; exact h.2.2))]
      · have hA : ¬(8*i+0 ≤ k ∧ k < 8*i+0+8 ∧ (bits.getD i 0).testBit (k - 8*i)) :=
          fun h => absurd h.2.1 (by omega)
        rw [if_neg hA]
        by_cases h3 : k < 8*((i+1)+n) ∧ (bits.getD (k/8) 0).testBit (k % 8)
        · rw [if_pos (show 8*(i+1) ≤ k ∧ k < 8*((i+1)+n) ∧ (bits.getD (k/8) 0).testBit (k % 8)
              from ⟨by omega, h3.1, h3.2⟩),
            if_pos (show 8*i ≤ k ∧ k < 8*(i+(n+1)) ∧ (bits.getD (k/8) 0).testBit (k % 8)
              from ⟨by omega, by omega, h3.2⟩)]
        · rw [if_neg (show ¬(8*(i+1) ≤ k ∧ k < 8*((i+1)+n) ∧ (bits.getD (k/8) 0).testBit (k % 8))
              from fun h => h3 ⟨h.2.1, h.2.2⟩),
            if_neg (show ¬(8*i ≤ k ∧ k < 8*(i+(n+1)) ∧ (bits.getD (k/8) 0).testBit (k % 8))
              from fun h => h3 ⟨by omega, h.2.2⟩)]

theorem bitsOuter_clear_getD (bits : List Nat) (sM cM : Nat) : ∀ fuel i clear set k,
    k < clear.length →
    (bitsOuter bits sM cM fuel i clear set).1.getD k 0 =
      (if 8*i ≤ k ∧ k < 8*(i+fuel) ∧ ¬ (bits.getD (k/8) 0).testBit (k % 8)
       then clear.getD k 0 ||| cM else clear.getD k 0) := by
  intro fuel
  induction fuel with
  | zero =>
    intro i clear set k hk
    simp only [bitsOuter]
    rw [if_neg (by omega)]
  | succ n ih =>
    intro i clear set k hk
    rw [show bitsOuter bits sM cM (n+1) i clear set =
        bitsOuter bits sM cM n (i+1)
          (bitsInner (bits.getD i 0) sM cM i 8 0 clear set).1
          (bitsInner (bits.getD i 0) sM cM i 8 0 clear set).2 from rfl]
    have hk1 : k < (bitsInner (bits.getD i 0) sM cM i 8 0 clear set).1.length := by
      rw [(bitsInner_length (bits.getD i 0) sM cM i 8 0 clear set).1]; exact hk
    rw [ih (i+1) _ _ _ hk1,
      bitsInner_clear_getD (bits.getD i 0) sM cM i 8 0 clear set k hk]
    by_cases h1 : k < 8*i
    · have hA : ¬(8*i+0 ≤ k ∧ k < 8*i+0+8 ∧ ¬ (bits.getD i 0).testBit (k - 8*i)) :=
        fun h => absurd h.1 (by omega)
      have hB : ¬(8*(i+1) ≤ k ∧ k < 8*((i+1)+n) ∧ ¬ (bits.getD (k/8) 0).testBit (k % 8)) :=
        fun h => absurd h.1 (by omega)
      have hC : ¬(8*i ≤ k ∧ k < 8*(i+(n+1)) ∧ ¬ (bits.getD (k/8) 0).testBit (k % 8)) :=
        fun h => absurd h.1 (by omega)
      rw [if_neg hA, if_neg hB, if_neg hC]
    · by_cases h2 : k < 8*(i+1)
      · have hdiv : k / 8 = i := by omega
        have hmod : k % 8 = k - 8*i := by omega
        have hB : ¬(8*(i+1) ≤ k ∧ k < 8*((i+1)+n) ∧ ¬ (bits.getD (k/8) 0).testBit (k % 8)) :=
          fun h => absurd h.1 (by omega)
        rw [if_neg hB]
        by_cases hbit : (bits.getD i 0).testBit (k - 8*i)
        · rw [if_neg (show ¬(8*i+0 ≤ k ∧ k < 8*i+0+8 ∧ ¬ (bits.getD i 0).testBit (k - 8*i))
              from fun h => h.2.2 hbit),
            if_neg (show ¬(8*i ≤ k ∧ k < 8*(i+(n+1)) ∧ ¬ (bits.getD (k/8) 0).testBit (k % 8))
              from fun h => h.2.2 (by rw [hdiv, hmod]; exact hbit))]
        · rw [if_pos (show 8*i+0 ≤ k ∧ k < 8*i+0+8 ∧ ¬ (bits.getD i 0).testBit (k - 8*i)
              from ⟨by omega, by omega, hbit⟩),
            if_pos (show 8*i ≤ k ∧ k < 8*(i+(n+1)) ∧ ¬ (bits.getD (k/8) 0).testBit (k % 8)
              from ⟨by omega, by omega, by rw [hdiv, hmod]; exact hbit⟩)]
      · have hA : ¬(8*i+0 ≤ k ∧ k < 8*i+0+8 ∧ ¬ (bits.getD i 0).testBit (k - 8*i)) :=
          fun h => absurd h.2.1 (by omega)
        rw [if_neg hA]
        by_cases h3 : k < 8*((i+1)+n) ∧ ¬ (bits.getD (k/8) 0).testBit (k % 8)
        · rw [if_pos (show 8*(i+1) ≤ k ∧ k < 8*((i+1)+n) ∧ ¬ (bits.getD (k/8) 0).testBit (k % 8)
              from ⟨by omega, h3.1, h3.2⟩),
            if_pos (show 8*i ≤ k ∧ k < 8*(i+(n+1)) ∧ ¬ (bits.getD (k/8) 0).testBit (k % 8)
              from ⟨by omega, by omega, h3.2⟩)]
        · rw [if_neg (show ¬(8*(i+1) ≤ k ∧ k < 8*((i+1)+n) ∧ ¬ (bits.getD (k/8) 0).testBit (k % 8))
              from fun h => h3 ⟨h.2.1, h.2.2⟩),
            if_neg (show ¬(8*i ≤ k ∧ k < 8*(i+(n+1)) ∧ ¬ (bits.getD (k/8) 0).testBit (k % 8))
              from fun h => h3 ⟨by omega, h.2.2⟩)]

theorem wrap64_eq_self (z : Int) (h1 : -(2^63) ≤ z) (h2 : z < 2^63) :
    wrap64 z = z := by
  unfold wrap64
  rw [Int.emod_eq_of_lt (by omega) (by omega)]
  omega

theorem Raster32_bits_dispatch (b : Bits) (resolution : Int)
    (clear set : List Nat) (sM cM : Nat)
    (hsM : sM ≠ 0) (hcM : cM ≠ 0) (h1 : clear.length ≠ 0) (h2 : set.length ≠ 0)
    (h3 : clear.length = set.length) :
    Raster32 (.bits b) resolution clear set sM cM =
      b.raster32 resolution clear set sM cM := by
  unfold Raster32
  rw [if_neg hsM, if_neg hcM, if_neg h1, if_neg h2, if_neg (fun h => h h3)]

theorem Bits_raster32_success (b : Bits) (clear set : List Nat) (sM cM : Nat)
    (hdur : ¬ (b.duration > wrap64 (b.res * clear.length))) :
    b.raster32 b.res clear set sM cM =
      (none,
       (bitsOuter b.bits sM cM (min (clear.length / 8) b.bits.length) 0 clear set).1,
       (bitsOuter b.bits sM cM (min (clear.length / 8) b.bits.length) 0 clear set).2) := by
  unfold Bits.raster32
  rw [if_neg (fun h => h rfl), if_neg hdur]

/-- C2 (amended with `0 ≤ b.res` and a no-overflow bound, which the
counterexample `Raster32_bits_negative_res_rejected` forces): rasterizing a
`Bits` value at its own resolution into zeroed equal-length buffers of at
least `8 * len(bits)` slots succeeds and reproduces the exact bit pattern:
sample `i` reads back as set when and only when bit `i` of the stream
(LSB first within each byte) is 1, and as cleared when and only when that
bit is 0. -/
theorem Raster32_bits_roundtrip (b : Bits) (setMask clearMask : Nat)
    (clear set : List Nat)
    (hb : b.bits ≠ []) (hsM : setMask ≠ 0) (hcM : clearMask ≠ 0)
    (hclear0 : ∀ v ∈ clear, v = 0) (hset0 : ∀ v ∈ set, v = 0)
    (hlen : clear.length = set.length) (hcap : 8 * b.bits.length ≤ clear.length)
    (hres : 0 ≤ b.res) (hov : b.res * clear.length < 2^63) :
    ∃ c s, Raster32 (.bits b) b.res clear set setMask clearMask = (none, c, s) ∧
      ∀ i < 8 * b.bits.length,
        ((s.getD i 0) &&& setMask ≠ 0 ↔ (b.bits.getD (i/8) 0).testBit (i % 8)) ∧
        ((c.getD i 0) &&& clearMask ≠ 0 ↔ ¬ (b.bits.getD (i/8) 0).testBit (i % 8)) := by
  have hlb : 0 < b.bits.length := List.length_pos.mpr hb
  have hclen : clear.length ≠ 0 := by omega
  have hslen : set.length ≠ 0 := by omega
  have hcastle : (b.bits.length : Int) ≤ (clear.length : Int) := by
    exact_mod_cast (by omega : b.bits.length ≤ clear.length)
  have hprodle : b.res * (b.bits.length : Int) ≤ b.res * (clear.length : Int) :=
    mul_le_mul_of_nonneg_left hcastle hres
  have hnn1 : 0 ≤ b.res * (b.bits.length : Int) :=
    mul_nonneg hres (Int.natCast_nonneg _)
  have hnn2 : 0 ≤ b.res * (clear.length : Int) :=
    mul_nonneg hres (Int.natCast_nonneg _)
  have hdur : ¬ (b.duration > wrap64 (b.res * clear.length)) := by
    unfold Bits.duration
    rw [wrap64_eq_self _ (by omega) (by omega),
      wrap64_eq_self _ (by omega) (by omega)]
    exact not_lt.mpr hprodle
  have hm : min (clear.length / 8) b.bits.length = b.bits.length :=
    min_eq_right ((Nat.le_div_iff_mul_le (by norm_num)).mpr (by omega))
  rw [Raster32_bits_dispatch b b.res clear set setMask clearMask hsM hcM hclen hslen hlen,
    Bits_raster32_success b clear set setMask clearMask hdur, hm]
  refine ⟨_, _, rfl, ?_⟩
  intro i hi
  have hks : i < set.length := by omega
  have hkc : i < clear.length := by omega
  rw [bitsOuter_set_getD b.bits setMask clearMask b.bits.length 0 clear set i hks,
    bitsOuter_clear_getD b.bits setMask clearMask b.bits.length 0 clear set i hkc,
    getD_eq_zero_of_all_zero set i hset0, getD_eq_zero_of_all_zero clear i hclear0]
  by_cases hbit : (b.bits.getD (i/8) 0).testBit (i % 8)
  · rw [if_pos ⟨by omega, by omega, hbit⟩, if_neg (fun h => h.2.2 hbit)]
    rw [Nat.zero_or, Nat.and_self, Nat.zero_and]
    exact ⟨⟨fun _ => hbit, fun _ => hsM⟩,
      ⟨fun h => absurd rfl h, fun hn => absurd hbit hn⟩⟩
  · rw [if_neg (fun h => hbit h.2.2), if_pos ⟨by omega, by omega, hbit⟩]
    rw [Nat.zero_or, Nat.and_self, Nat.zero_and]
    exact ⟨⟨fun h => absurd rfl h, fun h => absurd h hbit⟩,
      ⟨fun _ => hbit, fun _ => hcM⟩⟩

/-- Witness for `Raster32_bits_roundtrip`: one byte `0x02` (bit 1 set) at
1ns into zeroed 8-slot buffers with masks 1/1. -/
theorem Raster32_bits_roundtrip_witness :
    (Bits.bits ⟨[2], 1⟩ ≠ [] ∧ (1 : Nat) ≠ 0 ∧
      (∀ v ∈ List.replicate 8 (0:Nat), v = 0) ∧
      (List.replicate 8 (0:Nat)).length = (List.replicate 8 (0:Nat)).length ∧
      8 * (Bits.bits ⟨[2], 1⟩).length ≤ (List.replicate 8 (0:Nat)).length ∧
      (0 : Int) ≤ Bits.res ⟨[2], 1⟩ ∧
      Bits.res ⟨[2], 1⟩ * (List.replicate 8 (0:Nat)).length < 2^63) ∧
    (∃ c s, Raster32 (.bits ⟨[2], 1⟩) (Bits.res ⟨[2], 1⟩)
        (List.replicate 8 0) (List.replicate 8 0) 1 1 = (none, c, s) ∧
      ∀ i < 8 * (Bits.bits ⟨[2], 1⟩).length,
        ((s.getD i 0) &&& 1 ≠ 0 ↔ ((Bits.bits ⟨[2], 1⟩).getD (i/8) 0).testBit (i % 8)) ∧
        ((c.getD i 0) &&& 1 ≠ 0 ↔ ¬ ((Bits.bits ⟨[2], 1⟩).getD (i/8) 0).testBit (i % 8))) :=
  ⟨⟨by decide, by decide, by decide, rfl, by decide, by decide, by decide⟩,
    Raster32_bits_roundtrip ⟨[2], 1⟩ 1 1 (List.replicate 8 0) (List.replicate 8 0)
      (by decide) (by decide) (by decide) (by decide) (by decide) rfl
      (by decide) (by decide) (by decide)⟩

set_option maxRecDepth 4000 in
/-- C9: for every 8-bit symbol `b`, `expandNRZ b` is a 24-bit pattern in
which input bit `k` (`k = 7` down to `0`) occupies output bits `3k+2, 3k+1,
3k` with values `(1, bit k of b, 0)`; consequently `expandNRZ 0xFF =
0xDB6DB6` (the group 110 eight times) and `expandNRZ 0x00 = 0x924924`
(the group 100 eight times). -/
theorem expandNRZ_spec (b : Nat) (hb : b < 256) :
    expandNRZ b < 2^24 ∧
    (∀ k < 8, (expandNRZ b).testBit (3*k+2) = true ∧
      (expandNRZ b).testBit (3*k+1) = b.testBit k ∧
      (expandNRZ b).testBit (3*k) = false) ∧
    expandNRZ 0xFF = 0xDB6DB6 ∧ expandNRZ 0x00 = 0x924924 := by
  have h : ∀ b < 256, expandNRZ b < 2^24 ∧
      ∀ k < 8, (expandNRZ b).testBit (3*k+2) = true ∧
        (expandNRZ b).testBit (3*k+1) = b.testBit k ∧
        (expandNRZ b).testBit (3*k) = false := by decide
  exact ⟨(h b hb).1, (h b hb).2, by decide, by decide⟩

/-- Witness for `expandNRZ_spec` at the concrete symbol `0xAA`. -/
theorem expandNRZ_spec_witness :
    170 < 256 ∧
    (expandNRZ 170 < 2^24 ∧
      (∀ k < 8, (expandNRZ 170).testBit (3*k+2) = true ∧
        (expandNRZ 170).testBit (3*k+1) = Nat.testBit 170 k ∧
        (expandNRZ 170).testBit (3*k) = false) ∧
      expandNRZ 0xFF = 0xDB6DB6 ∧ expandNRZ 0x00 = 0x924924) :=
  ⟨by decide, expandNRZ_spec 170 (by decide)⟩

/-- C10: whatever `Program` value is rasterized — any loop count, parts and
resolution — once the mask and buffer checks of `Raster32` pass, the call
returns the "implement me" error and hands both buffers back unchanged. -/
theorem Program_raster32_always_error (p : Program) (resolution : Int)
    (clear set : List Nat) (setMask clearMask : Nat)
    (hs : setMask ≠ 0) (hc : clearMask ≠ 0)
    (h1 : clear.length ≠ 0) (h2 : set.length ≠ 0)
    (h3 : clear.length = set.length) :
    Raster32 (.program p) resolution clear set setMask clearMask =
      (some "implement me", clear, set) := by
  unfold Raster32 Program.raster32
  simp [hs, hc, h1, h2, h3]

/-- Witness for `Program_raster32_always_error`: a finite two-loop program
with one (empty-parts) shape, masks 1/1 and zeroed one-slot buffers. -/
theorem Program_raster32_always_error_witness :
    (1 : Nat) ≠ 0 ∧ ([(0 : Nat)].length ≠ 0) ∧ ([(0 : Nat)].length = [(0 : Nat)].length) ∧
    Raster32 (.program (.mk [] 1 2)) 1 [0] [0] 1 1 = (some "implement me", [0], [0]) :=
  ⟨by decide, by decide, rfl,
    Program_raster32_always_error (.mk [] 1 2) 1 [0] [0] 1 1
      (by decide) (by decide) (by decide) (by decide) rfl⟩

/-- C3 (code bug): `Bits.duration` multiplies the resolution by the byte
count of the stream, not by the bit count `8 * len(bits)`: a one-byte
stream (8 samples) at 1ns per bit reports 1ns, not 8ns. -/
theorem Bits_duration_is_byte_count :
    Bits.duration ⟨[0], 1⟩ = 1 ∧ Bits.duration ⟨[0], 1⟩ ≠ 1 * (8 * 1) := by decide

/-- C6 (code bug): `Edges.raster32` ignores the edge list.  For the edge
list `[0, 1]` (leading zero duration: the waveform starts Low and stays Low
for the whole slot), the rasterized slot 0 nevertheless receives `setMask`
in the set buffer, and the clear buffer stays zero. -/
theorem Edges_raster32_ignores_levels :
    Raster32 (.edges ⟨[0, 1], 1⟩) 1 [0] [0] 1 1 = (none, [0], [1]) := by decide

/-- C7 (code bug): the resolution check of `Edges.raster32` is inverted
relative to its own error message: a finer resolution (1 < Res = 2) is
rejected as "resolution is too coarse", while a coarser one (4 > Res = 2)
is accepted. -/
theorem Edges_raster32_resolution_check_inverted :
    (Edges.raster32 ⟨[2], 2⟩ 1 [0] [0] 1 1).1 = some "resolution is too coarse" ∧
    (Edges.raster32 ⟨[2], 2⟩ 4 [0] [0] 1 1).1 = none := by decide

/-- C8 (code bug, Edges side): an Edges source lasting 1 slot rasterized
into 2-slot buffers ORs `setMask` into the uncovered trailing slot as well:
the set buffer ends as `[1, 1]`, not `[1, 0]`. -/
theorem Edges_raster32_fills_whole_buffer :
    Raster32 (.edges ⟨[1], 1⟩) 1 [0, 0] [0, 0] 1 1 = (none, [0, 0], [1, 1]) := by decide

/-- C2 (counterexample): a `Bits` value with a negative resolution (legal
for `time.Duration`) passes the mask and length checks but is rejected by
the buffer-capacity comparison, so `Raster32` does not succeed for *every*
`Bits` value with zeroed equal-length buffers of length `8 * len(bits)`. -/
theorem Raster32_bits_negative_res_rejected :
    (Raster32 (.bits ⟨[1], -1⟩) (-1) (List.replicate 8 0) (List.replicate 8 0) 1 1).1
      ≠ none := by decide

/-- The Bits source does satisfy the trailing-slots property that the Edges
stub violates (see the C8 theorem): every slot at or beyond the `8 * fuel`
slots written by the byte loop keeps exactly the value it had on entry, in
both buffers. -/
theorem bitsOuter_tail_untouched (bits : List Nat) (sM cM fuel : Nat)
    (clear set : List Nat) (k : Nat) (hk : 8 * fuel ≤ k) :
    (bitsOuter bits sM cM fuel 0 clear set).2.getD k 0 = set.getD k 0 ∧
    (bitsOuter bits sM cM fuel 0 clear set).1.getD k 0 = clear.getD k 0 := by
  constructor
  · by_cases hks : k < set.length
    · rw [bitsOuter_set_getD bits sM cM fuel 0 clear set k hks,
        if_neg (fun h => absurd h.2.1 (by omega))]
    · rw [List.getD_eq_default _ _ (by
          rw [(bitsOuter_length bits sM cM fuel 0 clear set).2]; omega),
        List.getD_eq_default _ _ (by omega)]
  · by_cases hkc : k < clear.length
    · rw [bitsOuter_clear_getD bits sM cM fuel 0 clear set k hkc,
        if_neg (fun h => absurd h.2.1 (by omega))]
    · rw [List.getD_eq_default _ _ (by
          rw [(bitsOuter_length bits sM cM fuel 0 clear set).1]; omega),
        List.getD_eq_default _ _ (by omega)]

/-! ### The exact-search scans -/

theorem scanX_stop (d t x i : Nat) (h : ¬ i ≤ x) : scanX d t x i = none := by
  rw [scanX, dif_neg h]

theorem scanX_hit (d t x i : Nat) (h : i ≤ x) (hc : d % i = 0 ∧ d / i = t) :
    scanX d t x i = some i := by
  rw [scanX, dif_pos h, if_pos hc]

theorem scanX_miss (d t x i : Nat) (h : i ≤ x) (hc : ¬(d % i = 0 ∧ d / i = t)) :
    scanX d t x i = scanX d t x (i+1) := by
  conv_lhs => rw [scanX]
  rw [dif_pos h, if_neg hc]

theorem scanX_some (d t x : Nat) : ∀ i r, scanX d t x i = some r →
    i ≤ r ∧ r ≤ x ∧ d % r = 0 ∧ d / r = t := by
  have key : ∀ fuel i r, x + 1 - i ≤ fuel → scanX d t x i = some r →
      i ≤ r ∧ r ≤ x ∧ d % r = 0 ∧ d / r = t := by
    intro fuel
    induction fuel with
    | zero =>
      intro i r hle h
      rw [scanX_stop d t x i (by omega)] at h
      exact absurd h (by simp)
    | succ n ih =>
      intro i r hle h
      by_cases hix : i ≤ x
      · by_cases hc : d % i = 0 ∧ d / i = t
        · rw [scanX_hit d t x i hix hc] at h
          obtain rfl : i = r := by simpa using h
          exact ⟨Nat.le_refl _, hix, hc.1, hc.2⟩
        · rw [scanX_miss d t x i hix hc] at h
          obtain ⟨h1, h2, h3, h4⟩ := ih (i+1) r (by omega) h
          exact ⟨by omega, h2, h3, h4⟩
      · rw [scanX_stop d t x i hix] at h
        exact absurd h (by simp)
  exact fun i r => key (x + 1 - i) i r (Nat.le_refl _)

theorem scanX_complete (d t x : Nat) (ht : 1 ≤ t) : ∀ i r, i ≤ r → r ≤ x →
    d % r = 0 → d / r = t → scanX d t x i = some r := by
  have key : ∀ fuel i r, x + 1 - i ≤ fuel → i ≤ r → r ≤ x →
      d % r = 0 → d / r = t → scanX d t x i = some r := by
    intro fuel
    induction fuel with
    | zero => intro i r hle hir hrx _ _; omega
    | succ n ih =>
      intro i r hle hir hrx hmod hdiv
      have hd : t * r = d := by
        have h1 := Nat.div_mul_cancel (Nat.dvd_of_mod_eq_zero hmod)
        rw [hdiv] at h1
        omega
      by_cases hc : d % i = 0 ∧ d / i = t
      · have hdi : t * i = d := by
          have h2 := Nat.div_mul_cancel (Nat.dvd_of_mod_eq_zero hc.1)
          rw [hc.2] at h2
          omega
        have : i = r := Nat.eq_of_mul_eq_mul_left ht (by omega)
        rw [scanX_hit d t x i (by omega) hc, this]
      · have hir2 : i ≠ r := by
          intro heq
          subst heq
          exact hc ⟨hmod, hdiv⟩
        rw [scanX_miss d t x i (by omega) hc]
        exact ih (i+1) r (by omega) (by omega) hrx hmod hdiv
  exact fun i r hir hrx => key (x + 1 - i) i r (Nat.le_refl _) hir hrx

theorem scanY_stop (s t x y j : Nat) (h : ¬ j ≤ y) : scanY s t x y j = (0, 0) := by
  rw [scanY, dif_neg h]

theorem scanY_skip (s t x y j : Nat) (h : j ≤ y) (hmod : s % j ≠ 0) :
    scanY s t x y j = scanY s t x y (j+1) := by
  rw [scanY, dif_pos h, if_pos hmod]

theorem scanY_break (s t x y j : Nat) (h : j ≤ y) (hmod : ¬ s % j ≠ 0)
    (hlt : s / j < t) : scanY s t x y j = (0, 0) := by
  rw [scanY, dif_pos h, if_neg hmod, if_pos hlt]

theorem scanY_found_step (s t x y j i : Nat) (h : j ≤ y) (hmod : ¬ s % j ≠ 0)
    (hlt : ¬ s / j < t) (hsx : scanX (s / j) t x j = some i) :
    scanY s t x y j = (i, j) := by
  rw [scanY, dif_pos h, if_neg hmod, if_neg hlt, hsx]

theorem scanY_next (s t x y j : Nat) (h : j ≤ y) (hmod : ¬ s % j ≠ 0)
    (hlt : ¬ s / j < t) (hsx : scanX (s / j) t x j = none) :
    scanY s t x y j = scanY s t x y (j+1) := by
  rw [scanY, dif_pos h, if_neg hmod, if_neg hlt, hsx]

theorem scanY_empty (s t x y : Nat) : ∀ j, 1 ≤ j →
    (∀ n, j ≤ n → n ≤ y → ¬ hitY s t x n) → scanY s t x y j = (0, 0) := by
  have key : ∀ fuel j, y + 1 - j ≤ fuel → 1 ≤ j →
      (∀ n, j ≤ n → n ≤ y → ¬ hitY s t x n) → scanY s t x y j = (0, 0) := by
    intro fuel
    induction fuel with
    | zero =>
      intro j hle hj hno
      exact scanY_stop s t x y j (by omega)
    | succ nf ih =>
      intro j hle hj hno
      by_cases hjy : j ≤ y
      · by_cases hmod : s % j ≠ 0
        · rw [scanY_skip s t x y j hjy hmod]
          exact ih (j+1) (by omega) (by omega) (fun n h1 h2 => hno n (by omega) h2)
        · by_cases hlt : s / j < t
          · exact scanY_break s t x y j hjy hmod hlt
          · have hsx : scanX (s / j) t x j = none := by
              cases hx : scanX (s / j) t x j with
              | none => rfl
              | some i =>
                obtain ⟨h1, h2, h3, h4⟩ := scanX_some (s / j) t x j i hx
                have hdj := Nat.div_mul_cancel (Nat.dvd_of_mod_eq_zero h3)
                rw [h4] at hdj
                have hj0 : s % j = 0 := by omega
                have h6 := Nat.div_mul_cancel (Nat.dvd_of_mod_eq_zero hj0)
                rw [← hdj] at h6
                exact absurd ⟨i, h1, h2, h6.symm⟩ (hno j (Nat.le_refl _) hjy)
            rw [scanY_next s t x y j hjy hmod hlt hsx]
            exact ih (j+1) (by omega) (by omega) (fun n h1 h2 => hno n (by omega) h2)
      · exact scanY_stop s t x y j hjy
  exact fun j hj => key (y + 1 - j) j (Nat.le_refl _) hj

theorem scanY_found (s t x y : Nat) (ht : 1 ≤ t) : ∀ j n₀ m₀, 1 ≤ j → j ≤ n₀ →
    n₀ ≤ y → n₀ ≤ m₀ → m₀ ≤ x → s = t * m₀ * n₀ →
    (∀ n, j ≤ n → n < n₀ → ¬ hitY s t x n) →
    scanY s t x y j = (m₀, n₀) := by
  have key : ∀ fuel j n₀ m₀, y + 1 - j ≤ fuel → 1 ≤ j → j ≤ n₀ → n₀ ≤ y →
      n₀ ≤ m₀ → m₀ ≤ x → s = t * m₀ * n₀ →
      (∀ n, j ≤ n → n < n₀ → ¬ hitY s t x n) →
      scanY s t x y j = (m₀, n₀) := by
    intro fuel
    induction fuel with
    | zero => intro j n₀ m₀ hle hj hjn hny _ _ _ _; omega
    | succ nf ih =>
      intro j n₀ m₀ hle hj hjn hny hnm hmx hs hmin
      have hjy : j ≤ y := by omega
      have hn₀1 : 1 ≤ n₀ := by omega
      have hsdn : s / n₀ = t * m₀ := by
        rw [hs, Nat.mul_div_cancel _ (by omega : 0 < n₀)]
      have hsmodn : s % n₀ = 0 := by
        rw [hs]
        exact Nat.mul_mod_left _ _
      by_cases hjeq : j = n₀
      · subst hjeq
        have hmod : ¬ s % j ≠ 0 := fun h => h hsmodn
        have hlt : ¬ s / j < t := by
          rw [hsdn]
          have h2 : t ≤ t * m₀ := by
            simpa using Nat.mul_le_mul (Nat.le_refl t) (show 1 ≤ m₀ by omega)
          omega
        have hsx : scanX (s / j) t x j = some m₀ := by
          apply scanX_complete (s / j) t x ht j m₀ hnm hmx
          · rw [hsdn]
            exact Nat.mul_mod_left t m₀
          · rw [hsdn]
            exact Nat.mul_div_cancel t (by omega : 0 < m₀)
        exact scanY_found_step s t x y j m₀ hjy hmod hlt hsx
      · have hjn' : j < n₀ := by omega
        by_cases hmod : s % j ≠ 0
        · rw [scanY_skip s t x y j hjy hmod]
          exact ih (j+1) n₀ m₀ (by omega) (by omega) (by omega) hny hnm hmx hs
            (fun n h1 h2 => hmin n (by omega) h2)
        · have hlt : ¬ s / j < t := by
            have h1 : s / n₀ ≤ s / j := Nat.div_le_div_left (by omega) (by omega)
            rw [hsdn] at h1
            have h2 : t ≤ t * m₀ := by
              simpa using Nat.mul_le_mul (Nat.le_refl t) (show 1 ≤ m₀ by omega)
            omega
          have hsx : scanX (s / j) t x j = none := by
            cases hx : scanX (s / j) t x j with
            | none => rfl
            | some i =>
              obtain ⟨h1, h2, h3, h4⟩ := scanX_some (s / j) t x j i hx
              have hdj := Nat.div_mul_cancel (Nat.dvd_of_mod_eq_zero h3)
              rw [h4] at hdj
              have hj0 : s % j = 0 := by omega
              have h6 := Nat.div_mul_cancel (Nat.dvd_of_mod_eq_zero hj0)
              rw [← hdj] at h6
              exact absurd ⟨i, h1, h2, h6.symm⟩ (hmin j (Nat.le_refl _) hjn')
          rw [scanY_next s t x y j hjy hmod hlt hsx]
          exact ih (j+1) n₀ m₀ (by omega) (by omega) (by omega) hny hnm hmx hs
            (fun n h1 h2 => hmin n (by omega) h2)
  exact fun j n₀ m₀ hj hjn hny hnm hmx hs hmin =>
    key (y + 1 - j) j n₀ m₀ (Nat.le_refl _) hj hjn hny hnm hmx hs hmin

/-- No column in `[1, y]` admits an exact pair: the exact search returns
`(0, 0)`. -/
theorem findDivisorExact_none (s t x y : Nat)
    (h : ∀ n, 1 ≤ n → n ≤ y → ¬ hitY s t x n) :
    findDivisorExact s t x y = (0, 0) :=
  scanY_empty s t x y 1 (Nat.le_refl _) h

/-- The exact search returns the hit with the least column `n₀` (and its
unique row `m₀`). -/
theorem findDivisorExact_eq (s t x y n₀ m₀ : Nat) (ht : 1 ≤ t) (hn₀ : 1 ≤ n₀)
    (hny : n₀ ≤ y) (hnm : n₀ ≤ m₀) (hmx : m₀ ≤ x) (hs : s = t * m₀ * n₀)
    (hmin : ∀ n, 1 ≤ n → n < n₀ → ¬ hitY s t x n) :
    findDivisorExact s t x y = (m₀, n₀) :=
  scanY_found s t x y ht 1 n₀ m₀ (Nat.le_refl _) hn₀ hny hnm hmx hs hmin

/-- A non-zero exact-search result makes `findDivisor` return it with the
requested frequency and residual 0. -/
theorem findDivisor_of_exact (s t x y m n : Nat)
    (h : findDivisorExact s t x y = (m, n)) (hm : m ≠ 0) :
    findDivisor s t x y = some (m, n, t, 0) := by
  simp only [findDivisor, h]
  rw [if_pos hm]

/-- C1: whenever an exact divisor pair exists in range (`x` in `[1, X]`,
`y` in `[1, Y]`, `x ≥ y`, `srcHz / (x*y)` exactly `desiredHz`), the solver
`findDivisor` returns such an exact pair with residual error 0, and the
returned pair has the largest `x` among all exact pairs in range. -/
theorem findDivisor_exact_spec (s t X Y : Nat) (hs : 1 ≤ s) (ht : 1 ≤ t)
    (hY : 1 ≤ Y) (hXY : Y ≤ X) (hex : ∃ m n, ExactPair s t X Y m n) :
    ∃ m n, findDivisor s t X Y = some (m, n, t, 0) ∧ ExactPair s t X Y m n ∧
      ∀ m' n', ExactPair s t X Y m' n' → m' ≤ m := by
  classical
  obtain ⟨m₁, n₁, hp₁⟩ := hex
  have hex' : ∃ n, 1 ≤ n ∧ n ≤ Y ∧ hitY s t X n :=
    ⟨n₁, hp₁.1, hp₁.2.1, ⟨m₁, hp₁.2.2.1, hp₁.2.2.2.1, hp₁.2.2.2.2⟩⟩
  have hPn₀ := Nat.find_spec hex'
  obtain ⟨hn₀1, hn₀Y, m₀, hnm, hmX, hs₀⟩ := hPn₀
  have hminHit : ∀ n, 1 ≤ n → n < Nat.find hex' → ¬ hitY s t X n := by
    intro n h1 h2 hhit
    exact Nat.find_min hex' h2 ⟨h1, by omega, hhit⟩
  have hfde : findDivisorExact s t X Y = (m₀, Nat.find hex') :=
    findDivisorExact_eq s t X Y (Nat.find hex') m₀ ht hn₀1 hn₀Y hnm hmX hs₀ hminHit
  refine ⟨m₀, Nat.find hex',
    findDivisor_of_exact s t X Y m₀ (Nat.find hex') hfde (by omega),
    ⟨hn₀1, hn₀Y, hnm, hmX, hs₀⟩, ?_⟩
  intro m' n' hp'
  have hn' : Nat.find hex' ≤ n' :=
    Nat.find_min' hex' ⟨hp'.1, hp'.2.1, ⟨m', hp'.2.2.1, hp'.2.2.2.1, hp'.2.2.2.2⟩⟩
  have he : t * (m' * n') = t * (m₀ * Nat.find hex') := by
    have e1 : t * m' * n' = t * m₀ * Nat.find hex' := by
      rw [← hp'.2.2.2.2, ← hs₀]
    calc t * (m' * n') = t * m' * n' := by ring
      _ = t * m₀ * Nat.find hex' := e1
      _ = t * (m₀ * Nat.find hex') := by ring
  have he2 : m' * n' = m₀ * Nat.find hex' := Nat.eq_of_mul_eq_mul_left (by omega) he
  by_contra hgt
  push_neg at hgt
  have h3 : m₀ * Nat.find hex' < m' * Nat.find hex' :=
    mul_lt_mul_of_pos_right hgt (by omega)
  have h4 : m' * Nat.find hex' ≤ m' * n' := Nat.mul_le_mul_left m' hn'
  omega

/-! ### The oversampling loop and the concrete solver calls -/

theorem overLoop_zero (s t x y i : Nat) : overLoop s t x y 0 i = none := rfl

theorem overLoop_succ (s t x y fuel i : Nat) :
    overLoop s t x y (fuel+1) i =
      (if i * t % u64Mod > 100000 ∧ i > 10 then some (fallback s t x y)
       else if (findDivisorExact s (i * t % u64Mod) x y).1 ≠ 0 then
         some ((findDivisorExact s (i * t % u64Mod) x y).1,
               (findDivisorExact s (i * t % u64Mod) x y).2, i * t % u64Mod, 0)
       else overLoop s t x y fuel (i+1)) := rfl

/-- Iterations of the oversampling loop on which the break condition is
false and the exact search misses just advance the index. -/
theorem overLoop_skip (s t x y : Nat) : ∀ steps i fuel,
    (∀ k, i ≤ k → k < i + steps →
      ¬(k * t % u64Mod > 100000 ∧ k > 10) ∧
      (findDivisorExact s (k * t % u64Mod) x y).1 = 0) →
    overLoop s t x y (steps + fuel) i = overLoop s t x y fuel (i + steps) := by
  intro steps
  induction steps with
  | zero => intro i fuel h; simp
  | succ ns ih =>
    intro i fuel h
    rw [show ns + 1 + fuel = (ns + fuel) + 1 from by omega, overLoop_succ]
    obtain ⟨hbrk, hz⟩ := h i (Nat.le_refl _) (by omega)
    rw [if_neg hbrk, if_neg (fun hne => hne hz)]
    rw [ih (i+1) fuel (fun k hk1 hk2 => h k (by omega) (by omega))]
    congr 1
    omega

theorem c5_exact_head : findDivisorExact 192000000 1 4095 33 = (0, 0) := by
  apply findDivisorExact_none
  intro n hn1 hn33 hhit
  obtain ⟨m, hnm, hmx, hs⟩ := hhit
  have hmn : m * n ≤ 4095 * 33 := Nat.mul_le_mul hmx hn33
  rw [Nat.one_mul] at hs
  omega

set_option maxRecDepth 4000 in
theorem c5_no_divisor_1421_1499 : ∀ kk < 79, 192000000 % (1421 + kk) ≠ 0 := by
  decide

theorem c5_no_hit_between (k : Nat) (h2 : 2 ≤ k) (h1499 : k ≤ 1499) :
    findDivisorExact 192000000 k 4095 33 = (0, 0) := by
  apply findDivisorExact_none
  intro n hn1 hn33 hhit
  obtain ⟨m, hnm, hmx, hs⟩ := hhit
  have hmn : m * n ≤ 4095 * 33 := Nat.mul_le_mul hmx hn33
  have he : k * (m * n) = 192000000 := by
    rw [← Nat.mul_assoc]
    exact hs.symm
  by_cases hk : k ≤ 1420
  · have hle : k * (m * n) ≤ 1420 * 135135 :=
      Nat.mul_le_mul hk (by omega)
    omega
  · have hd : k ∣ 192000000 := ⟨m * n, he.symm⟩
    have hmod : 192000000 % k = 0 := Nat.mod_eq_zero_of_dvd hd
    have hnd := c5_no_divisor_1421_1499 (k - 1421) (by omega)
    rw [show 1421 + (k - 1421) = k from by omega] at hnd
    exact absurd hmod hnd

theorem c5_exact_at_1500 : findDivisorExact 192000000 1500 4095 33 = (4000, 32) := by
  apply findDivisorExact_eq 192000000 1500 4095 33 32 4000 (by omega) (by omega)
    (by omega) (by omega) (by omega) (by norm_num)
  intro n hn1 hn31 hhit
  obtain ⟨m, hnm, hmx, hs⟩ := hhit
  have he : 1500 * (m * n) = 1500 * 128000 := by
    rw [← Nat.mul_assoc, ← hs]
  have hmn : m * n = 128000 := Nat.eq_of_mul_eq_mul_left (by omega) he
  have : m * n ≤ 4095 * 31 := Nat.mul_le_mul hmx (by omega)
  omega

/-- C5: at `srcHz = 192000000`, `desiredHz = 1`, `xMax = 4095`, `yMax = 33`
there is no exact pair at the requested rate; `findDivisor` falls through to
the oversampling loop and lands on the hardware-exact rate 1500 Hz (not 1)
with residual error 0. -/
theorem findDivisor_c5 :
    findDivisorExact 192000000 1 4095 33 = (0, 0) ∧
    findDivisor 192000000 1 4095 33 = some (4000, 32, 1500, 0) ∧
    (1500 : Nat) ≠ 1 := by
  refine ⟨c5_exact_head, ?_, by decide⟩
  have h0 : findDivisor 192000000 1 4095 33 = overLoop 192000000 1 4095 33 u64Mod 2 := by
    simp only [findDivisor, c5_exact_head]
    rw [if_neg (by simp)]
  rw [h0, show u64Mod = 1498 + (u64Mod - 1498) from by unfold u64Mod; omega]
  rw [overLoop_skip 192000000 1 4095 33 1498 2 (u64Mod - 1498) ?hskip]
  case hskip =>
    intro k hk2 hk1500
    have hkmod : k * 1 % u64Mod = k := by
      rw [Nat.mul_one]
      exact Nat.mod_eq_of_lt (by simp only [u64Mod]; omega)
    refine ⟨?_, ?_⟩
    · rw [hkmod]
      rintro ⟨hgt, _⟩
      omega
    · rw [hkmod, c5_no_hit_between k (by omega) (by omega)]
  rw [show (2:Nat) + 1498 = 1500 from by norm_num,
    show u64Mod - 1498 = (u64Mod - 1499) + 1 from by unfold u64Mod; omega,
    overLoop_succ,
    show (1500:Nat) * 1 % u64Mod = 1500 from by unfold u64Mod; omega]
  rw [if_neg (by omega), c5_exact_at_1500, if_pos (by decide : ((4000:Nat), (32:Nat)).1 ≠ 0)]

/-! ### The error-minimizing fallback at the C4 inputs

`fallback 192000000 46886 4095 33` scans 4095 × ≤33 divisor pairs.  The
first 100 rows are evaluated by the kernel in four chunks of 25 (the
minimum-error state is already final after row 89); for the remaining 3995
rows the scan provably never updates the state, because every pair `(k, j)`
with `k ≥ 101` has error at least the current minimum 2379. -/

theorem errInner_zero (s d i j : Nat) (st : Nat × Nat × Nat × Nat) :
    errInner s d i 0 j st = st := rfl

theorem errInner_succ (s d i n j : Nat) (st : Nat × Nat × Nat × Nat) :
    errInner s d i (n+1) j st = errInner s d i n (j+1) (errStep s d i j st) := rfl

theorem errOuter_zero (s d y i : Nat) (st : Nat × Nat × Nat × Nat) :
    errOuter s d y 0 i st = st := rfl

theorem errOuter_succ (s d y n i : Nat) (st : Nat × Nat × Nat × Nat) :
    errOuter s d y (n+1) i st =
      errOuter s d y n (i+1) (errInner s d i (min y i) 1 st) := rfl

theorem errOuter_add (s d y : Nat) : ∀ a b i st,
    errOuter s d y (a + b) i st = errOuter s d y b (i + a) (errOuter s d y a i st) := by
  intro a
  induction a with
  | zero => intro b i st; rw [Nat.zero_add, errOuter_zero, Nat.add_zero]
  | succ n ih =>
    intro b i st
    rw [show n + 1 + b = (n + b) + 1 from by omega, errOuter_succ, ih b (i+1),
      errOuter_succ, show i + 1 + n = i + (n + 1) from by omega]

theorem errStep_noop (s d i j : Nat) (st : Nat × Nat × Nat × Nat)
    (h : ¬ st.1 > (s / i / j + (u64Mod - d)) % u64Mod) :
    errStep s d i j st = st := by
  show (if st.1 > (s / i / j + (u64Mod - d)) % u64Mod
        then ((s / i / j + (u64Mod - d)) % u64Mod, i, j, s / i / j) else st) = st
  rw [if_neg h]

theorem errInner_noop (s d i : Nat) : ∀ fuel j st,
    (∀ jj, j ≤ jj → jj < j + fuel →
      ¬ st.1 > (s / i / jj + (u64Mod - d)) % u64Mod) →
    errInner s d i fuel j st = st := by
  intro fuel
  induction fuel with
  | zero => intro j st _; rfl
  | succ n ih =>
    intro j st h
    rw [errInner_succ, errStep_noop s d i j st (h j (Nat.le_refl _) (by omega))]
    exact ih (j+1) st (fun jj h1 h2 => h jj (by omega) (by omega))

theorem errOuter_noop (s d y : Nat) : ∀ fuel i st,
    (∀ k, i ≤ k → k < i + fuel → ∀ jj, 1 ≤ jj → jj < 1 + min y k →
      ¬ st.1 > (s / k / jj + (u64Mod - d)) % u64Mod) →
    errOuter s d y fuel i st = st := by
  intro fuel
  induction fuel with
  | zero => intro i st _; rfl
  | succ n ih =>
    intro i st h
    rw [errOuter_succ,
      errInner_noop s d i (min y i) 1 st
        (fun jj h1 h2 => h i (Nat.le_refl _) (by omega) jj h1 h2)]
    exact ih (i+1) st (fun k h1 h2 jj h3 h4 => h k (by omega) (by omega) jj h3 h4)

theorem errwrap_of_ge (a D : Nat) (hD : D ≤ u64Mod) (hDa : D ≤ a)
    (ha : a - D < u64Mod) :
    (a + (u64Mod - D)) % u64Mod = a - D := by
  rw [show a + (u64Mod - D) = u64Mod + (a - D) from by omega,
    Nat.add_mod_left, Nat.mod_eq_of_lt ha]

theorem errwrap_of_lt (a D : Nat) (hD : D ≤ u64Mod) (hDa : a < D) :
    (a + (u64Mod - D)) % u64Mod = a + (u64Mod - D) :=
  Nat.mod_eq_of_lt (by omega)

set_option maxRecDepth 100000 in
theorem c4_divisors_2047 : ∀ j2 < 34, 1 ≤ j2 → 2047 % j2 = 0 → j2 = 1 ∨ j2 = 23 := by
  decide

/-- Every fallback pair `(k, jj)` with `k ≥ 101` has error at least 2379,
the minimum already found in the first 100 rows. -/
theorem c4_tail_no_update : ∀ k, 101 ≤ k → k < 101 + 3995 →
    ∀ jj, 1 ≤ jj → jj < 1 + min 33 k →
    ¬ (2379 : Nat) > (19200000000 / k / jj + (u64Mod - 9377200)) % u64Mod := by
  intro k hk1 hk2 jj hj1 hj2
  have hU : u64Mod = 18446744073709551616 := rfl
  have hjj33 : jj ≤ 33 := by
    have hmin : min 33 k = 33 := min_eq_left (by omega)
    omega
  rw [Nat.div_div_eq_div_mul]
  have hK101 : 101 ≤ k * jj := by
    calc 101 = 101 * 1 := by norm_num
    _ ≤ k * jj := Nat.mul_le_mul (by omega) (by omega)
  by_cases hK2046 : k * jj ≤ 2046
  · have ha : 9384164 ≤ 19200000000 / (k * jj) := by
      calc (9384164 : Nat) = 19200000000 / 2046 := by norm_num
      _ ≤ 19200000000 / (k * jj) := Nat.div_le_div_left hK2046 (by omega)
    have haU : 19200000000 / (k * jj) - 9377200 < u64Mod :=
      lt_of_le_of_lt (le_trans (Nat.sub_le _ _) (Nat.div_le_self _ _)) (by omega)
    rw [errwrap_of_ge (19200000000 / (k * jj)) 9377200 (by omega) (by omega) haU]
    omega
  · by_cases hK2047 : k * jj ≤ 2047
    · have hKeq : k * jj = 2047 := by omega
      have hjk : jj * k = 2047 := by rw [Nat.mul_comm]; omega
      have hjd : jj ∣ 2047 := ⟨k, hjk.symm⟩
      rcases c4_divisors_2047 jj (by omega) (by omega)
        (Nat.mod_eq_zero_of_dvd hjd) with hj | hj
      · subst hj
        have hk2047 : k = 2047 := by omega
        subst hk2047
        rw [show (2047:Nat) * 1 = 2047 from by norm_num,
          show (19200000000:Nat) / 2047 = 9379579 from by norm_num,
          errwrap_of_ge 9379579 9377200 (by unfold u64Mod; omega) (by omega)
            (by unfold u64Mod; omega)]
        omega
      · subst hj
        omega
    · have ha : 19200000000 / (k * jj) ≤ 9375000 := by
        calc 19200000000 / (k * jj) ≤ 19200000000 / 2048 :=
          Nat.div_le_div_left (by omega) (by omega)
        _ = 9375000 := by norm_num
      rw [errwrap_of_lt (19200000000 / (k * jj)) 9377200 (by omega) (by omega)]
      exact Nat.not_lt.mpr (le_trans
        (by unfold u64Mod; omega : (2379:Nat) ≤ u64Mod - 9377200)
        (Nat.le_add_left _ _))

theorem strict4_eq {α : Type} (st : Nat × Nat × Nat × Nat)
    (f : Nat × Nat × Nat × Nat → α) : strict4 st f = f st := by
  unfold strict4
  cases hmaj : st.1 % 2 + st.2.1 % 2 + st.2.2.1 % 2 + st.2.2.2 % 2 with
  | zero => rfl
  | succ n => rfl

theorem errInnerF_eq (s d i : Nat) : ∀ fuel j st,
    errInnerF s d i fuel j st = errInner s d i fuel j st := by
  intro fuel
  induction fuel with
  | zero => intro j st; rfl
  | succ n ih =>
    intro j st
    rw [show errInnerF s d i (n+1) j st =
        strict4 (errStep s d i j st) (errInnerF s d i n (j+1)) from rfl,
      strict4_eq, ih, errInner_succ]

theorem errOuterF_eq (s d y : Nat) : ∀ fuel i st,
    errOuterF s d y fuel i st = errOuter s d y fuel i st := by
  intro fuel
  induction fuel with
  | zero => intro i st; rfl
  | succ n ih =>
    intro i st
    rw [show errOuterF s d y (n+1) i st =
        errOuterF s d y n (i+1) (errInnerF s d i (min y i) 1 st) from rfl,
      errInnerF_eq, ih, errOuter_succ]

set_option maxRecDepth 8000 in
theorem c4_chunk1 :
    errOuter 19200000000 9377200 33 25 1 (1152921504606846975, 0, 0, 0) =
      (21342800, 25, 25, 30720000) := by
  rw [← errOuterF_eq]
  decide

set_option maxRecDepth 8000 in
theorem c4_chunk2 :
    errOuter 19200000000 9377200 33 25 26 (21342800, 25, 25, 30720000) =
      (2259163, 50, 33, 11636363) := by
  rw [← errOuterF_eq]
  decide

set_option maxRecDepth 8000 in
theorem c4_chunk3 :
    errOuter 19200000000 9377200 33 25 51 (2259163, 50, 33, 11636363) =
      (6964, 62, 33, 9384164) := by
  rw [← errOuterF_eq]
  decide

set_option maxRecDepth 8000 in
theorem c4_chunk4 :
    errOuter 19200000000 9377200 33 25 76 (6964, 62, 33, 9384164) =
      (2379, 89, 23, 9379579) := by
  rw [← errOuterF_eq]
  decide

theorem c4_errOuter_100 :
    errOuter 19200000000 9377200 33 100 1 (1152921504606846975, 0, 0, 0) =
      (2379, 89, 23, 9379579) := by
  rw [show (100:Nat) = 25 + 75 from by norm_num, errOuter_add, c4_chunk1,
    show (1:Nat) + 25 = 26 from by norm_num,
    show (75:Nat) = 25 + 50 from by norm_num, errOuter_add, c4_chunk2,
    show (26:Nat) + 25 = 51 from by norm_num,
    show (50:Nat) = 25 + 25 from by norm_num, errOuter_add, c4_chunk3,
    show (51:Nat) + 25 = 76 from by norm_num, c4_chunk4]

theorem c4_fallback : fallback 192000000 46886 4095 33 = (89, 23, 93795, 23) := by
  have e1 : (46886:Nat) * 200 % u64Mod = 9377200 := by decide
  have e2 : (192000000:Nat) * 100 % u64Mod = 19200000000 := by decide
  show ((errOuter (192000000 * 100 % u64Mod) (46886 * 200 % u64Mod) 33 4095 1
      (1152921504606846975, 0, 0, 0)).2.1,
    (errOuter (192000000 * 100 % u64Mod) (46886 * 200 % u64Mod) 33 4095 1
      (1152921504606846975, 0, 0, 0)).2.2.1,
    (errOuter (192000000 * 100 % u64Mod) (46886 * 200 % u64Mod) 33 4095 1
      (1152921504606846975, 0, 0, 0)).2.2.2 / 100,
    (errOuter (192000000 * 100 % u64Mod) (46886 * 200 % u64Mod) 33 4095 1
      (1152921504606846975, 0, 0, 0)).1 / 100) = (89, 23, 93795, 23)
  rw [e1, e2, show (4095:Nat) = 100 + 3995 from by norm_num, errOuter_add,
    c4_errOuter_100, show (1:Nat) + 100 = 101 from by norm_num,
    errOuter_noop 19200000000 9377200 33 3995 101 (2379, 89, 23, 9379579)
      c4_tail_no_update]
  decide

/-- Any target rate divisible by 7 admits no exact pair against the 192 MHz
source (7 does not divide 192000000). -/
theorem c4_no_hit (d : Nat) (hd : 7 ∣ d) :
    findDivisorExact 192000000 d 4095 33 = (0, 0) := by
  apply findDivisorExact_none
  intro n hn1 hn33 hhit
  obtain ⟨m, hnm, hmx, hs⟩ := hhit
  obtain ⟨c, rfl⟩ := hd
  have h7 : (7:Nat) ∣ 192000000 := ⟨c * m * n, by rw [hs]; ring⟩
  have hmod : 192000000 % 7 = 0 := Nat.mod_eq_zero_of_dvd h7
  exact absurd hmod (by decide)

/-- The solver at the C4 inputs: no exact pair at 46886 Hz nor at any
oversampled multiple before the loop breaks at `i = 11`, so the
error-minimizing fallback decides the result: `(89, 23, 93795, 23)`. -/
theorem findDivisor_c4_eval :
    findDivisor 192000000 46886 4095 33 = some (89, 23, 93795, 23) := by
  have h0 : findDivisor 192000000 46886 4095 33 =
      overLoop 192000000 46886 4095 33 u64Mod 2 := by
    simp only [findDivisor, c4_no_hit 46886 ⟨6698, rfl⟩]
    rw [if_neg (by simp)]
  rw [h0, show u64Mod = 9 + (u64Mod - 9) from by unfold u64Mod; omega]
  rw [overLoop_skip 192000000 46886 4095 33 9 2 (u64Mod - 9) ?hskip]
  case hskip =>
    intro k hk2 hk11
    have hkmod : k * 46886 % u64Mod = k * 46886 :=
      Nat.mod_eq_of_lt (by simp only [u64Mod]; omega)
    refine ⟨?_, ?_⟩
    · rw [hkmod]
      rintro ⟨_, hgt⟩
      omega
    · rw [hkmod, c4_no_hit (k * 46886) ⟨k * 6698, by ring⟩]
  rw [show (2:Nat) + 9 = 11 from by norm_num,
    show u64Mod - 9 = (u64Mod - 10) + 1 from by unfold u64Mod; omega,
    overLoop_succ,
    show (11:Nat) * 46886 % u64Mod = 515746 from by decide]
  rw [if_pos (by omega : (515746:Nat) > 100000 ∧ (11:Nat) > 10), c4_fallback]

/-- C4 (counterexample): the solver at `srcHz = 192000000`,
`desiredHz = 192000000 / 4095`, `xMax = 4095`, `yMax = 33` does not return
residual error 0: the call lands in the error-minimizing fallback and the
residual is 23. -/
theorem findDivisor_c4_residual_ne_zero :
    findDivisor 192000000 (192000000 / 4095) 4095 33 ≠ some (89, 23, 93795, 0) := by
  rw [show (192000000:Nat) / 4095 = 46886 from by norm_num, findDivisor_c4_eval]
  decide

/-- C4 (amended): the call returns `x = 89`, `y = 23`,
`achievedHz = 93795` — and residual error 23, not 0. -/
theorem findDivisor_c4 :
    findDivisor 192000000 (192000000 / 4095) 4095 33 = some (89, 23, 93795, 23) := by
  rw [show (192000000:Nat) / 4095 = 46886 from by norm_num]
  exact findDivisor_c4_eval

/-- Witness for `findDivisor_exact_spec`: `srcHz = 6`, `desiredHz = 1`,
`X = 3`, `Y = 2`; the exact pairs are `(3, 2)` only, and the solver
returns it. -/
theorem findDivisor_exact_spec_witness :
    (1 ≤ 6 ∧ 1 ≤ 1 ∧ 1 ≤ 2 ∧ 2 ≤ 3 ∧ (∃ m n, ExactPair 6 1 3 2 m n)) ∧
    (∃ m n, findDivisor 6 1 3 2 = some (m, n, 1, 0) ∧ ExactPair 6 1 3 2 m n ∧
      ∀ m' n', ExactPair 6 1 3 2 m' n' → m' ≤ m) :=
  ⟨⟨by decide, by decide, by decide, by decide,
      ⟨3, 2, by decide, by decide, by decide, by decide, by decide⟩⟩,
    findDivisor_exact_spec 6 1 3 2 (by decide) (by decide) (by decide) (by decide)
      ⟨3, 2, by decide, by decide, by decide, by decide, by decide⟩⟩

end Periph
